import Mathlib

/-!
Verification of `creepdir.py` (`scan_folder_for_filetypes`).

The script is embedded shallowly over `List Char` strings:

* `rfindIdx` models Python `str.rfind` (index of last occurrence).
* `splitextExt` models `os.path.splitext(p)[1]` as implemented by
  `genericpath._splitext` with `sep = '/'`, no `altsep`, `extsep = '.'`:
  the extension starts at the last dot, unless every character between the
  last separator and that dot is itself a dot, in which case the extension
  is empty.
* `lowerChar` models `str.lower` character-wise on the basic latin range
  (the only case exercised here; Python agrees with this on ASCII).
* `insertEntry` / `groupByExt` model the insertion-ordered dict built by
  `files_by_ext.setdefault(ext, []).append(rel_path)` over the sequence of
  `(rel_path, filename)` pairs produced by the `os.walk` loop.  The walk
  itself is interactive I/O, so the enumerated files are a parameter.
* `sortTbl` models `sorted(files_by_ext.items())`: Python's sort is
  ascending by tuple comparison, and since dict keys are pairwise distinct
  the result is the unique permutation sorted by code-point string order of
  the keys, which insertion sort by `keyLE` on the keys computes.
* `renderGroup` / `renderReport` model the sequence of `f.write` calls.
* `pathJoin` models `posixpath.join` for one extra component, `basename`
  models `posixpath.basename`.
* `scan_folder_for_filetypes` models the whole function: its interactive
  inputs (the picked folder, the directory of the script, the walk results)
  are parameters, and its side effects (console lines, the recursive
  `os.makedirs(..., exist_ok=True)`, the file written in mode `"w"`) are
  returned as data in `RunResult`.
-/

/-- Index of the last occurrence of `c` in `l`, as in Python `str.rfind`
(`none` plays the role of `-1`). -/
def rfindIdx (c : Char) : List Char → Option Nat
  | [] => none
  | a :: as =>
    match rfindIdx c as with
    | some i => some (i + 1)
    | none => if a = c then some 0 else none

/-- Model of `os.path.splitext(p)[1]` for POSIX paths: everything from the last `.`
onward, unless there is no `.` after the last `/`, or every character
between the last `/` (or the start) and the last `.` is a `.`. -/
def splitextExt (p : List Char) : List Char :=
  match rfindIdx '.' p with
  | none => []
  | some dotIndex =>
    let filenameIndex : Nat :=
      match rfindIdx '/' p with
      | none => 0
      | some sepIndex => sepIndex + 1
    if filenameIndex ≤ dotIndex then
      if ((p.drop filenameIndex).take (dotIndex - filenameIndex)).any (fun c => c ≠ '.') then
        p.drop dotIndex
      else []
    else []

/-- Model of `str.lower` on one character, on the basic latin range (Python's
`str.lower` agrees with this on ASCII input). -/
def lowerChar (c : Char) : Char :=
  if h : 65 ≤ c.toNat ∧ c.toNat ≤ 90 then
    Char.ofNatAux (c.toNat + 32) (Or.inl (by omega))
  else c

/-- The grouping key of a filename: `os.path.splitext(filename)[1].lower()`. -/
def extKey (filename : List Char) : List Char :=
  (splitextExt filename).map lowerChar

/-- One file met by the `os.walk` loop: `rel` is the
`os.path.relpath(os.path.join(dirpath, filename), folder_selected)` value and
`name` the bare `filename`. -/
structure FileEnt where
  rel : List Char
  name : List Char

/-- One group of the table: an extension key and its list of relative paths. -/
abbrev ExtGrp := List Char × List (List Char)

/-- Model of `files_by_ext.setdefault(ext, []).append(rel_path)` on an
insertion-ordered association list: append to the existing group, or add a
new group at the end. -/
def insertEntry (t : List ExtGrp) (k : List Char) (v : List Char) : List ExtGrp :=
  match t with
  | [] => [(k, [v])]
  | (k', vs) :: rest =>
    if k' = k then (k', vs ++ [v]) :: rest
    else (k', vs) :: insertEntry rest k v

/-- The whole grouping loop over the enumerated files. -/
def groupByExt (files : List FileEnt) : List ExtGrp :=
  files.foldl (fun t e => insertEntry t (extKey e.name) e.rel) []

/-- Lookup of a group's paths (empty for an absent key). -/
def pathsOf (t : List ExtGrp) (k : List Char) : List (List Char) :=
  match t with
  | [] => []
  | (k', vs) :: rest => if k' = k then vs else pathsOf rest k

/-- Python string `<` on the keys: code-point lexicographic comparison. -/
def keyLT : List Char → List Char → Bool
  | [], [] => false
  | [], _ :: _ => true
  | _ :: _, [] => false
  | a :: as, b :: bs =>
    if a < b then true else if b < a then false else keyLT as bs

/-- Python string `<=` on the keys. -/
def keyLE (x y : List Char) : Bool := !(keyLT y x)

/-- Order on groups used by `sorted(files_by_ext.items())`: by key. -/
def grpLE (a b : ExtGrp) : Prop := keyLE a.1 b.1 = true

instance : DecidableRel grpLE :=
  fun a b => inferInstanceAs (Decidable (keyLE a.1 b.1 = true))

/-- Model of `sorted(files_by_ext.items())`. -/
def sortTbl (t : List ExtGrp) : List ExtGrp := List.insertionSort grpLE t

/-- The writes of one iteration of the output loop:
`f.write(f"--- {ext} ---\n")`, one `f.write(f"{path}\n")` per path,
`f.write("\n")`. -/
def renderGroup (ext : List Char) (paths : List (List Char)) : List Char :=
  ("--- ".data ++ ext ++ " ---\n".data)
    ++ paths.foldl (fun acc p => acc ++ (p ++ "\n".data)) []
    ++ "\n".data

/-- The whole report body written to the output file. -/
def renderReport (t : List ExtGrp) : List Char :=
  t.foldl (fun acc g => acc ++ renderGroup g.1 g.2) []

/-- Model of `posixpath.join` of a path and one further (single) component. -/
def pathJoin (a b : List Char) : List Char :=
  if b.head? = some '/' then b
  else if a = [] ∨ a.getLast? = some '/' then a ++ b
  else a ++ '/' :: b

/-- Model of `posixpath.basename`: everything after the last `/`. -/
def basename (p : List Char) : List Char :=
  (p.reverse.takeWhile (fun c => c ≠ '/')).reverse

/-- The `os.makedirs(output_dir, exist_ok=True)` call, as data. -/
structure MkDirs where
  path : List Char
  recursive : Bool
  exist_ok : Bool
deriving DecidableEq

/-- Everything `scan_folder_for_filetypes` does to the outside world:
the lines printed, the directory-creation call if any, and the file written
(path and full contents) if any. -/
structure RunResult where
  printed : List (List Char)
  madeDirs : Option MkDirs
  written : Option (List Char × List Char)
deriving DecidableEq

/-- The output file path `os.path.join(output_dir, f"{folder_name}.txt")`
with `output_dir = os.path.join(script_dir, "output")` and
`folder_name = os.path.basename(folder_selected)`. -/
def outputPathOf (scriptDir folderSelected : List Char) : List Char :=
  pathJoin (pathJoin scriptDir "output".data) (basename folderSelected ++ ".txt".data)

/-- Model of `scan_folder_for_filetypes`, with its interactive inputs as parameters:
`scriptDir` is `os.path.dirname(os.path.abspath(__file__))`,
`folderSelected` the folder picker's result (`[]` when cancelled, as
`filedialog.askdirectory` returns the empty string then, and
`if not folder_selected` tests string emptiness), and `walk` the files the
`os.walk` loop enumerates. -/
def scan_folder_for_filetypes (scriptDir folderSelected : List Char)
    (walk : List FileEnt) : RunResult :=
  if folderSelected = [] then
    { printed := ["No folder selected.".data], madeDirs := none, written := none }
  else
    let tbl := groupByExt walk
    let outputDir := pathJoin scriptDir "output".data
    let outputPath := pathJoin outputDir (basename folderSelected ++ ".txt".data)
    { printed := ["Saved to: ".data ++ outputPath],
      madeDirs := some { path := outputDir, recursive := true, exist_ok := true },
      written := some (outputPath, renderReport (sortTbl tbl)) }

/-- Opening a file in mode `"w"` and writing `content` replaces whatever was
at `path` in the file system. -/
def applyWrite (fs : List Char → Option (List Char)) (path content : List Char) :
    List Char → Option (List Char) :=
  fun p => if p = path then some content else fs p

/-- The original claim's reading of the extension, written from the spec's
words for comparison with the code's `extKey`: the substring of the filename
from the last period character onward, lowercased, or the empty string if no
period is present. -/
def specExtKey (p : List Char) : List Char :=
  match rfindIdx '.' p with
  | none => []
  | some d => (p.drop d).map lowerChar

/-- The amended reading of the extension: as `specExtKey`, except that when
every character before the last period is itself a period (dotfiles such as
`.gitignore`, or names like `..txt`) the extension is the empty string. -/
def amendedExtKey (p : List Char) : List Char :=
  match rfindIdx '.' p with
  | none => []
  | some d =>
    if (p.take d).all (fun c => c = '.') then []
    else (p.drop d).map lowerChar

theorem rfindIdx_eq_none (c : Char) (l : List Char) (h : c ∉ l) :
    rfindIdx c l = none := by
  induction l with
  | nil => rfl
  | cons a as ih =>
    simp only [List.mem_cons, not_or] at h
    simp [rfindIdx, ih h.2, if_neg (Ne.symm h.1)]

theorem rfindIdx_drop (c : Char) (l : List Char) (i : Nat)
    (h : rfindIdx c l = some i) : ∃ t, l.drop i = c :: t := by
  induction l generalizing i with
  | nil => simp [rfindIdx] at h
  | cons a as ih =>
    simp only [rfindIdx] at h
    cases hr : rfindIdx c as with
    | some j =>
      rw [hr] at h
      obtain rfl : j + 1 = i := by simpa using h
      simpa using ih j hr
    | none =>
      rw [hr] at h
      by_cases hac : a = c
      · obtain rfl : 0 = i := by simpa [hac] using h
        exact ⟨as, by simp [hac]⟩
      · simp [hac] at h
theorem keyLT_asymm : ∀ x y : List Char, keyLT x y = true → keyLT y x = false := by
  intro x
  induction x with
  | nil => intro y h; cases y <;> simp [keyLT] at h ⊢
  | cons a as ih =>
    intro y h
    cases y with
    | nil => simp [keyLT] at h
    | cons b bs =>
      simp only [keyLT] at h ⊢
      by_cases hab : a < b
      · simp [if_neg (lt_asymm hab), if_pos hab]
      · by_cases hba : b < a
        · simp [hab, hba] at h
        · simp only [if_neg hab, if_neg hba] at h ⊢
          exact ih bs h

theorem keyLT_conn : ∀ x y : List Char, keyLT x y = false → keyLT y x = false → x = y := by
  intro x
  induction x with
  | nil => intro y h _; cases y with
    | nil => rfl
    | cons b bs => simp [keyLT] at h
  | cons a as ih =>
    intro y h h'
    cases y with
    | nil => simp [keyLT] at h'
    | cons b bs =>
      simp only [keyLT] at h h'
      by_cases hab : a < b
      · simp [hab] at h
      · by_cases hba : b < a
        · simp [hba, hab] at h'
        · have : a = b := le_antisymm (not_lt.mp hba) (not_lt.mp hab)
          subst this
          simp only [if_neg hab, if_neg hba] at h h'
          rw [ih bs h h']

theorem keyLT_trans : ∀ x y z : List Char,
    keyLT x y = true → keyLT y z = true → keyLT x z = true := by
  intro x
  induction x with
  | nil =>
    intro y z h h'
    cases y with
    | nil => simp [keyLT] at h
    | cons b bs =>
      cases z with
      | nil => simp [keyLT] at h'
      | cons c cs => simp [keyLT]
  | cons a as ih =>
    intro y z h h'
    cases y with
    | nil => simp [keyLT] at h
    | cons b bs =>
      cases z with
      | nil => simp [keyLT] at h'
      | cons c cs =>
        simp only [keyLT] at h h' ⊢
        by_cases hab : a < b <;> by_cases hbc : b < c
        · have : a < c := lt_trans hab hbc
          simp [this]
        · have hbc' : ¬ c < b := by
            intro hcb; simp [hbc, hcb] at h'
          have : b = c := le_antisymm (not_lt.mp hbc') (not_lt.mp hbc)
          subst this
          simp [hab]
        · have hba : ¬ b < a := by
            intro hba; simp [hab, hba] at h
          have : a = b := le_antisymm (not_lt.mp hba) (not_lt.mp hab)
          subst this
          simp [hbc]
        · have hba : ¬ b < a := by
            intro hba; simp [hab, hba] at h
          have hcb : ¬ c < b := by
            intro hcb; simp [hbc, hcb] at h'
          have e1 : a = b := le_antisymm (not_lt.mp hba) (not_lt.mp hab)
          have e2 : b = c := le_antisymm (not_lt.mp hcb) (not_lt.mp hbc)
          subst e1; subst e2
          simp only [if_neg hab, if_neg hba] at h h' ⊢
          exact ih bs cs h h'

theorem lowerChar_not_upper (c : Char) : (lowerChar c).isUpper = false := by
  have h65 : (65 : UInt32).toBitVec.toNat = 65 := rfl
  have h90 : (90 : UInt32).toBitVec.toNat = 90 := rfl
  have hc : c.toNat = c.val.toBitVec.toNat := rfl
  unfold lowerChar
  split
  · rename_i h
    simp only [Char.isUpper, Char.ofNatAux, UInt32.le_def,
      BitVec.le_def, BitVec.toNat_ofNatLt]
    simp only [Bool.and_eq_false_iff, decide_eq_false_iff_not, not_le]
    right
    omega
  · rename_i h
    rw [hc] at h
    simp only [Char.isUpper, UInt32.le_def, BitVec.le_def,
      Bool.and_eq_false_iff, decide_eq_false_iff_not, not_le, h65, h90]
    omega

theorem lowerChar_dot : lowerChar '.' = '.' := by decide

instance : IsTotal ExtGrp grpLE := by
  constructor
  intro a b
  unfold grpLE keyLE
  by_cases h : keyLT b.1 a.1 = true
  · right
    simp [keyLT_asymm _ _ h]
  · left
    simp [Bool.not_eq_true] at h
    simp [h]

instance : IsTrans ExtGrp grpLE := by
  constructor
  intro a b c hab hbc
  unfold grpLE keyLE at *
  simp only [Bool.not_eq_true', Bool.not_eq_false] at *
  by_cases hca : keyLT c.1 a.1 = true
  · by_cases hab' : keyLT a.1 b.1 = true
    · have := keyLT_trans _ _ _ hca hab'
      rw [this] at hbc
      cases hbc
    · simp only [Bool.not_eq_true] at hab'
      have : a.1 = b.1 := keyLT_conn _ _ hab' hab
      rw [← this] at hbc
      rw [hca] at hbc
      cases hbc
  · simpa using hca

theorem sortTbl_perm (t : List ExtGrp) : List.Perm (sortTbl t) t :=
  List.perm_insertionSort grpLE t

theorem sortTbl_sorted (t : List ExtGrp) : List.Sorted grpLE (sortTbl t) :=
  List.sorted_insertionSort grpLE t

/-- The keys of the table, in insertion order. -/
def keysOf (t : List ExtGrp) : List (List Char) := t.map Prod.fst

/-- All stored relative paths of the table, concatenated group by group. -/
def allPaths (t : List ExtGrp) : List (List Char) := (t.map Prod.snd).flatten

theorem keysOf_insertEntry (t : List ExtGrp) (k v : List Char) :
    keysOf (insertEntry t k v) =
      if k ∈ keysOf t then keysOf t else keysOf t ++ [k] := by
  induction t with
  | nil => simp [keysOf, insertEntry]
  | cons g rest ih =>
    obtain ⟨k', vs⟩ := g
    simp only [insertEntry]
    by_cases h : k' = k
    · simp [keysOf, h]
    · simp only [keysOf, List.map_cons, List.mem_cons] at ih ⊢
      rw [if_neg h]
      simp only [List.map_cons]
      by_cases hm : k ∈ List.map Prod.fst rest
      · simp only [if_pos hm] at ih
        simp [Ne.symm h, hm, ih]
      · simp only [if_neg hm] at ih
        simp [Ne.symm h, hm, ih]

theorem keysOf_nodup_insertEntry (t : List ExtGrp) (k v : List Char)
    (h : (keysOf t).Nodup) : (keysOf (insertEntry t k v)).Nodup := by
  rw [keysOf_insertEntry]
  by_cases hm : k ∈ keysOf t
  · simpa [hm] using h
  · simp [hm, List.nodup_append, h]

theorem keysOf_nodup_groupByExt (L : List FileEnt) :
    (keysOf (groupByExt L)).Nodup := by
  suffices h : ∀ (l : List FileEnt) (t : List ExtGrp), (keysOf t).Nodup →
      (keysOf (l.foldl (fun t e => insertEntry t (extKey e.name) e.rel) t)).Nodup by
    exact h L [] (by simp [keysOf])
  intro l
  induction l with
  | nil => intro t ht; simpa using ht
  | cons e es ih =>
    intro t ht
    exact ih _ (keysOf_nodup_insertEntry t _ _ ht)

theorem allPaths_insertEntry (t : List ExtGrp) (k v : List Char) :
    List.Perm (allPaths (insertEntry t k v)) (allPaths t ++ [v]) := by
  induction t with
  | nil => simp [allPaths, insertEntry]
  | cons g rest ih =>
    obtain ⟨k', vs⟩ := g
    simp only [insertEntry]
    by_cases h : k' = k
    · rw [if_pos h]
      simp only [allPaths, List.map_cons, List.flatten_cons, List.append_assoc]
      exact List.Perm.append_left vs
        (by simpa using @List.perm_append_comm _ [v] ((rest.map Prod.snd).flatten))
    · rw [if_neg h]
      simp only [allPaths, List.map_cons, List.flatten_cons, List.append_assoc] at ih ⊢
      exact List.Perm.append_left vs ih

theorem allPaths_groupByExt (L : List FileEnt) :
    List.Perm (allPaths (groupByExt L)) (L.map FileEnt.rel) := by
  suffices h : ∀ (l : List FileEnt) (t : List ExtGrp),
      List.Perm (allPaths (l.foldl (fun t e => insertEntry t (extKey e.name) e.rel) t))
        (allPaths t ++ l.map FileEnt.rel) by
    simpa [allPaths] using h L []
  intro l
  induction l with
  | nil => intro t; simp
  | cons e es ih =>
    intro t
    simp only [List.foldl_cons, List.map_cons]
    refine (ih (insertEntry t (extKey e.name) e.rel)).trans ?_
    refine (List.Perm.append_right (es.map FileEnt.rel) (allPaths_insertEntry t _ _)).trans ?_
    simp [List.append_assoc]

theorem pathsOf_insertEntry_self (t : List ExtGrp) (k v : List Char) :
    pathsOf (insertEntry t k v) k = pathsOf t k ++ [v] := by
  induction t with
  | nil => simp [insertEntry, pathsOf]
  | cons g rest ih =>
    obtain ⟨k', vs⟩ := g
    simp only [insertEntry]
    by_cases h : k' = k
    · simp [pathsOf, h]
    · simp [pathsOf, h, ih]

theorem groupByExt_snoc (L : List FileEnt) (e : FileEnt) :
    groupByExt (L ++ [e]) = insertEntry (groupByExt L) (extKey e.name) e.rel := by
  simp [groupByExt, List.foldl_append]

theorem foldl_append_eq_flatten {α β : Type} (f : α → List β) (l : List α) (acc : List β) :
    l.foldl (fun a x => a ++ f x) acc = acc ++ (l.map f).flatten := by
  induction l generalizing acc with
  | nil => simp
  | cons x xs ih => simp [ih, List.append_assoc]

theorem renderReport_eq_flatten (t : List ExtGrp) :
    renderReport t = (t.map fun g => renderGroup g.1 g.2).flatten := by
  have h := foldl_append_eq_flatten (fun g : ExtGrp => renderGroup g.1 g.2) t []
  simpa [renderReport] using h

theorem renderGroup_eq (ext : List Char) (paths : List (List Char)) :
    renderGroup ext paths =
      ("--- ".data ++ ext ++ " ---".data ++ ['\n'])
        ++ (paths.map fun p => p ++ ['\n']).flatten ++ ['\n'] := by
  have h := foldl_append_eq_flatten (fun p => p ++ ['\n']) paths []
  simp only [renderGroup, h]
  have h1 : " ---\n".data = " ---".data ++ ['\n'] := by decide
  have h2 : "\n".data = ['\n'] := by decide
  simp [h1, h2, List.append_assoc]

/-- Shape of `splitextExt`: empty, or starting at a dot. -/
theorem splitextExt_shape (p : List Char) :
    splitextExt p = [] ∨ ∃ t, splitextExt p = '.' :: t := by
  unfold splitextExt
  cases hd : rfindIdx '.' p with
  | none => exact Or.inl rfl
  | some d =>
    simp only
    split
    · split
      · obtain ⟨t, ht⟩ := rfindIdx_drop '.' p d hd
        exact Or.inr ⟨t, ht⟩
      · exact Or.inl rfl
    · exact Or.inl rfl

/-- Shape of the grouping key: empty, or starting with a dot, and with no
upper-case basic latin letter anywhere. -/
theorem extKey_shape (name : List Char) :
    (extKey name = [] ∨ (extKey name).head? = some '.')
      ∧ ∀ c ∈ extKey name, c.isUpper = false := by
  constructor
  · rcases splitextExt_shape name with h | ⟨t, h⟩
    · exact Or.inl (by simp [extKey, h])
    · exact Or.inr (by simp [extKey, h, lowerChar_dot])
  · intro c hc
    simp only [extKey, List.mem_map] at hc
    obtain ⟨c', _, rfl⟩ := hc
    exact lowerChar_not_upper c'

theorem basename_no_slash (p : List Char) : ∀ c ∈ basename p, c ≠ '/' := by
  intro c hc
  simp only [basename, List.mem_reverse] at hc
  have := List.mem_takeWhile_imp hc
  simpa using this

theorem pathJoin_eq (a b : List Char) (hb : b.head? ≠ some '/')
    (ha : a ≠ []) (ha' : a.getLast? ≠ some '/') :
    pathJoin a b = a ++ '/' :: b := by
  unfold pathJoin
  rw [if_neg hb, if_neg (by simp [ha, ha'])]

theorem outputPathOf_eq (s f : List Char) (hs : s ≠ [])
    (hs' : s.getLast? ≠ some '/') :
    outputPathOf s f = s ++ "/output/".data ++ basename f ++ ".txt".data := by
  have h1 : pathJoin s "output".data = s ++ '/' :: "output".data :=
    pathJoin_eq s _ (by decide) hs hs'
  have hhead : (basename f ++ ".txt".data).head? ≠ some '/' := by
    cases hb : basename f with
    | nil => decide
    | cons c cs =>
      have hc : c ≠ '/' := basename_no_slash f c (by simp [hb])
      simp [hb, hc]
  have h2 : (s ++ '/' :: "output".data) ≠ [] := by simp
  have h3 : (s ++ '/' :: "output".data).getLast? ≠ some '/' := by
    rw [List.getLast?_append_of_ne_nil s (by simp)]
    decide
  have h4 := pathJoin_eq (s ++ '/' :: "output".data) (basename f ++ ".txt".data) hhead h2 h3
  have hx : "/output/".data = '/' :: "output".data ++ ['/'] := by decide
  simp only [outputPathOf, h1, h4, hx]
  simp [List.append_assoc]

/-- Claim C4: on a cancelled (empty) folder-picker result the run prints
exactly the line `No folder selected.`, creates no directory, writes no
file, and returns normally. -/
theorem cancelled_run_no_output (scriptDir : List Char) (walk : List FileEnt) :
    scan_folder_for_filetypes scriptDir [] walk =
      { printed := ["No folder selected.".data], madeDirs := none, written := none } :=
  rfl

/-- Claim C5: two runs whose traversals produce the same extension group
table write byte-identical report files (the whole written pair — path and
contents — agrees). -/
theorem same_table_same_report (s f : List Char) (L1 L2 : List FileEnt)
    (h : groupByExt L1 = groupByExt L2) :
    (scan_folder_for_filetypes s f L1).written
      = (scan_folder_for_filetypes s f L2).written := by
  unfold scan_folder_for_filetypes
  by_cases hf : f = [] <;> simp [hf, h]

theorem same_table_same_report_witness :
    groupByExt [⟨"x/a.txt".data, "a.txt".data⟩] = groupByExt [⟨"x/a.txt".data, "a.txt".data⟩]
    ∧ (scan_folder_for_filetypes "/app".data "/d".data [⟨"x/a.txt".data, "a.txt".data⟩]).written
      = (scan_folder_for_filetypes "/app".data "/d".data [⟨"x/a.txt".data, "a.txt".data⟩]).written :=
  ⟨rfl, same_table_same_report "/app".data "/d".data _ _ rfl⟩

/-- Claim C6: the key of `a.TXT` is `.txt` (case-insensitive key), the
stored path keeps its original casing, and re-encountering the same path
appends it again (no deduplication); in general an encountered file is
appended verbatim to the group of its key. -/
theorem grouping_case_and_no_dedup :
    extKey "a.TXT".data = ".txt".data
    ∧ groupByExt [⟨"a.TXT".data, "a.TXT".data⟩] = [(".txt".data, ["a.TXT".data])]
    ∧ groupByExt [⟨"a.TXT".data, "a.TXT".data⟩, ⟨"a.TXT".data, "a.TXT".data⟩]
        = [(".txt".data, ["a.TXT".data, "a.TXT".data])]
    ∧ ∀ (L : List FileEnt) (e : FileEnt),
        pathsOf (groupByExt (L ++ [e])) (extKey e.name)
          = pathsOf (groupByExt L) (extKey e.name) ++ [e.rel] := by
  refine ⟨by decide, by decide, by decide, ?_⟩
  intro L e
  rw [groupByExt_snoc, pathsOf_insertEntry_self]

/-- Claim C9: a filename that begins with a period and contains no other
period gets the empty grouping key, like extensionless files. -/
theorem dotfile_key_empty (rest : List Char) (h : '.' ∉ rest) :
    extKey ('.' :: rest) = [] := by
  have hr : rfindIdx '.' rest = none := rfindIdx_eq_none '.' rest h
  have hdot : rfindIdx '.' ('.' :: rest) = some 0 := by simp [rfindIdx, hr]
  unfold extKey splitextExt
  rw [hdot]
  cases hsep : rfindIdx '/' ('.' :: rest) with
  | none => simp [hsep]
  | some s => simp [hsep]

theorem dotfile_key_empty_witness :
    '.' ∉ "gitignore".data ∧ extKey ('.' :: "gitignore".data) = [] :=
  ⟨by decide, dotfile_key_empty "gitignore".data (by decide)⟩

/-- Claim C8: a traversal that finds no files still writes the report file,
with empty contents. -/
theorem empty_walk_empty_report (s f : List Char) (hf : f ≠ []) :
    (scan_folder_for_filetypes s f []).written = some (outputPathOf s f, []) := by
  unfold scan_folder_for_filetypes
  rw [if_neg hf]
  simp [outputPathOf, groupByExt, sortTbl, List.insertionSort, renderReport]

theorem empty_walk_empty_report_witness :
    ("/d".data : List Char) ≠ []
    ∧ (scan_folder_for_filetypes "/app".data "/d".data []).written
      = some (outputPathOf "/app".data "/d".data, []) :=
  ⟨by decide, empty_walk_empty_report "/app".data "/d".data (by decide)⟩

/-- Claim C7: for a selected directory, the report goes to
`<script dir>/output/<basename of the selected directory>.txt`; the `output`
directory is created recursively with `exist_ok`, and writing in mode `"w"`
replaces any existing file at that path. -/
theorem output_path_mkdir_overwrite (s f : List Char) (w : List FileEnt)
    (hs : s ≠ []) (hs' : s.getLast? ≠ some '/') (hf : f ≠ []) :
    (scan_folder_for_filetypes s f w).written
        = some (outputPathOf s f, renderReport (sortTbl (groupByExt w)))
    ∧ outputPathOf s f = s ++ "/output/".data ++ basename f ++ ".txt".data
    ∧ (scan_folder_for_filetypes s f w).madeDirs
        = some { path := s ++ "/output".data, recursive := true, exist_ok := true }
    ∧ ∀ fs : List Char → Option (List Char),
        applyWrite fs (outputPathOf s f) (renderReport (sortTbl (groupByExt w)))
          (outputPathOf s f)
          = some (renderReport (sortTbl (groupByExt w))) := by
  have h1 : pathJoin s "output".data = s ++ '/' :: "output".data :=
    pathJoin_eq s _ (by decide) hs hs'
  have hout : ('/' : Char) :: "output".data = "/output".data := by decide
  refine ⟨?_, outputPathOf_eq s f hs hs', ?_, ?_⟩
  · unfold scan_folder_for_filetypes
    rw [if_neg hf]
    rfl
  · unfold scan_folder_for_filetypes
    rw [if_neg hf]
    show some (MkDirs.mk (pathJoin s "output".data) true true)
        = some (MkDirs.mk (s ++ "/output".data) true true)
    rw [h1, hout]
  · intro fs
    simp [applyWrite]

theorem output_path_mkdir_overwrite_witness :
    ("/app".data : List Char) ≠ []
    ∧ ("/app".data : List Char).getLast? ≠ some '/'
    ∧ ("/d/game".data : List Char) ≠ []
    ∧ outputPathOf "/app".data "/d/game".data
        = "/app".data ++ "/output/".data ++ basename "/d/game".data ++ ".txt".data :=
  ⟨by decide, by decide, by decide,
    (output_path_mkdir_overwrite "/app".data "/d/game".data []
      (by decide) (by decide) (by decide)).2.1⟩

/-- Claim C3: every enumerated file ends up in the table exactly once: the
concatenation of all groups is a permutation of the enumerated relative
paths (so the total path count equals the file count), and the keys are
pairwise distinct, so each file sits under exactly one key. -/
theorem every_file_exactly_once (L : List FileEnt) :
    List.Perm (allPaths (groupByExt L)) (L.map FileEnt.rel)
    ∧ (allPaths (groupByExt L)).length = L.length
    ∧ (keysOf (groupByExt L)).Nodup :=
  ⟨allPaths_groupByExt L,
   by rw [(allPaths_groupByExt L).length_eq, List.length_map],
   keysOf_nodup_groupByExt L⟩

/-- Claim C1 counterexample: for the filename `.gitignore` the spec's rule
(substring from the last period onward, lowercased) yields `.gitignore`,
but the code's key is the empty string. -/
theorem extension_claim_counterexample :
    specExtKey ".gitignore".data = ".gitignore".data
    ∧ extKey ".gitignore".data = []
    ∧ extKey ".gitignore".data ≠ specExtKey ".gitignore".data := by
  decide

/-- Claim C1 (amended): for every filename (no `/` inside), the grouping
key is the substring from the last period onward, lowercased — except that
when every character before the last period is itself a period the key is
the empty string — and the empty string when no period is present. -/
theorem extension_key_amended (p : List Char) (h : '/' ∉ p) :
    extKey p = amendedExtKey p := by
  have hsep : rfindIdx '/' p = none := rfindIdx_eq_none '/' p h
  unfold extKey splitextExt amendedExtKey
  cases hdot : rfindIdx '.' p with
  | none => simp
  | some d =>
    simp only [hsep, List.drop_zero, Nat.sub_zero]
    rw [if_pos (Nat.zero_le d)]
    by_cases hallp : ∀ x ∈ p.take d, x = '.'
    · have hall : ((p.take d).all fun c => c = '.') = true := by
        rw [List.all_eq_true]
        intro x hx
        simpa using hallp x hx
      have hany : ((p.take d).any fun c => c ≠ '.') = false := by
        rw [List.any_eq_false]
        intro x hx
        simpa using hallp x hx
      simp only [hany, hall]
      simp
    · have hall : ((p.take d).all fun c => c = '.') = false := by
        apply Bool.eq_false_iff.mpr
        intro hcontr
        have hc := List.all_eq_true.mp hcontr
        push_neg at hallp
        obtain ⟨x, hx, hne⟩ := hallp
        exact hne (by simpa using hc x hx)
      have hany : ((p.take d).any fun c => c ≠ '.') = true := by
        rw [List.any_eq_true]
        push_neg at hallp
        obtain ⟨x, hx, hne⟩ := hallp
        exact ⟨x, hx, by simpa using hne⟩
      simp only [hany, hall]
      simp [List.map_drop]

theorem extension_key_amended_witness :
    '/' ∉ "a.TXT".data ∧ extKey "a.TXT".data = amendedExtKey "a.TXT".data :=
  ⟨by decide, extension_key_amended "a.TXT".data (by decide)⟩

/-- Claim C2: the report lists the extension groups in strictly ascending
code-point string order of the keys; sorting only permutes the groups
(each group's path list, hence its insertion order, is untouched); each
group is rendered as the header line `--- <ext> ---`, one relative path per
line, then one blank line; and the empty key's header renders as
`---  ---`. -/
theorem report_sorted_format (L : List FileEnt) :
    ((sortTbl (groupByExt L)).map Prod.fst).Pairwise (fun a b => keyLT a b = true)
    ∧ List.Perm (sortTbl (groupByExt L)) (groupByExt L)
    ∧ (∀ t : List ExtGrp, renderReport t = (t.map fun g => renderGroup g.1 g.2).flatten)
    ∧ (∀ ext paths, renderGroup ext paths =
        ("--- ".data ++ ext ++ " ---".data ++ ['\n'])
          ++ (paths.map fun p => p ++ ['\n']).flatten ++ ['\n'])
    ∧ (∀ paths, renderGroup [] paths =
        "---  ---\n".data ++ ((paths : List (List Char)).map fun p => p ++ ['\n']).flatten ++ ['\n']) := by
  have hperm : List.Perm (sortTbl (groupByExt L)) (groupByExt L) := sortTbl_perm _
  refine ⟨?_, hperm, renderReport_eq_flatten, renderGroup_eq, ?_⟩
  · have hsorted : (sortTbl (groupByExt L)).Pairwise grpLE := sortTbl_sorted _
    have hnd : (keysOf (groupByExt L)).Nodup := keysOf_nodup_groupByExt L
    have hnd2 : ((sortTbl (groupByExt L)).map Prod.fst).Nodup :=
      ((hperm.map Prod.fst).nodup_iff).mpr hnd
    rw [List.pairwise_map]
    have hndp : (sortTbl (groupByExt L)).Pairwise (fun a b => a.1 ≠ b.1) :=
      List.pairwise_map.mp hnd2
    refine (hsorted.and hndp).imp ?_
    intro a b hab
    obtain ⟨hle, hne⟩ := hab
    have hba : keyLT b.1 a.1 = false := by
      have : (!(keyLT b.1 a.1)) = true := hle
      simpa using this
    cases hlt : keyLT a.1 b.1 with
    | true => rfl
    | false => exact absurd (keyLT_conn a.1 b.1 hlt hba) hne
  · intro paths
    rw [renderGroup_eq]
    have : "--- ".data ++ ([] : List Char) ++ " ---".data ++ ['\n'] = "---  ---\n".data := by
      decide
    rw [this]

theorem insertEntry_key_mem (t : List ExtGrp) (k v : List Char) :
    ∀ g ∈ insertEntry t k v, g.1 = k ∨ ∃ g' ∈ t, g.1 = g'.1 := by
  induction t with
  | nil =>
    intro g hg
    simp only [insertEntry, List.mem_singleton] at hg
    subst hg
    exact Or.inl rfl
  | cons g0 rest ih =>
    obtain ⟨k', vs⟩ := g0
    intro g hg
    simp only [insertEntry] at hg
    by_cases h : k' = k
    · rw [if_pos h] at hg
      rcases List.mem_cons.mp hg with hg | hg
      · subst hg; exact Or.inl h
      · exact Or.inr ⟨g, List.mem_cons_of_mem _ hg, rfl⟩
    · rw [if_neg h] at hg
      rcases List.mem_cons.mp hg with hg | hg
      · subst hg; exact Or.inr ⟨(k', vs), List.mem_cons_self _ _, rfl⟩
      · rcases ih g hg with h1 | ⟨g', hg', he⟩
        · exact Or.inl h1
        · exact Or.inr ⟨g', List.mem_cons_of_mem _ hg', he⟩

/-- Claim C10: after any sequence of insertions (every intermediate table
is `groupByExt` of the corresponding prefix of the traversal), each key of
the table is the empty string or starts with a period, and contains no
upper-case letter. -/
theorem table_keys_invariant (L : List FileEnt) (g : ExtGrp)
    (hg : g ∈ groupByExt L) :
    (g.1 = [] ∨ g.1.head? = some '.') ∧ ∀ c ∈ g.1, c.isUpper = false := by
  suffices h : ∀ (l : List FileEnt) (t : List ExtGrp),
      (∀ g' ∈ t, (g'.1 = [] ∨ g'.1.head? = some '.') ∧ ∀ c ∈ g'.1, c.isUpper = false) →
      ∀ g' ∈ l.foldl (fun t e => insertEntry t (extKey e.name) e.rel) t,
        (g'.1 = [] ∨ g'.1.head? = some '.') ∧ ∀ c ∈ g'.1, c.isUpper = false by
    exact h L [] (by simp) g hg
  intro l
  induction l with
  | nil => intro t ht; simpa using ht
  | cons e es ih =>
    intro t ht
    simp only [List.foldl_cons]
    refine ih _ ?_
    intro g' hg'
    rcases insertEntry_key_mem t (extKey e.name) e.rel g' hg' with h1 | ⟨g'', hg'', he⟩
    · rw [h1]
      exact extKey_shape e.name
    · rw [he]
      exact ht g'' hg''

theorem table_keys_invariant_witness :
    ((".txt".data, ["a.TXT".data]) : ExtGrp) ∈ groupByExt [⟨"a.TXT".data, "a.TXT".data⟩]
    ∧ ((".txt".data = ([] : List Char) ∨ (".txt".data : List Char).head? = some '.')
        ∧ ∀ c ∈ (".txt".data : List Char), c.isUpper = false) :=
  ⟨by decide,
    table_keys_invariant [⟨"a.TXT".data, "a.TXT".data⟩] (".txt".data, ["a.TXT".data]) (by decide)⟩
